import Mathlib

/-!
# Verification of the JSL recursive Bayesian state-estimation library

Shallow embedding, over exact rational arithmetic, of the core numerical
routines of the JSL library:

* `jsl/nlds/extended_kalman_smoother.py` (extended RTS smoother),
* `jsl/nlds/diagonal_extended_kalman_filter.py` (diagonal EKF / NDEKF),
* `jsl/demos/linreg_kf.py` (online KF for linear regression and the
  closed-form batch posterior),
* `jsl/sent/agents/eekf.py` (the EEKF agent wrapper),
* the bootstrap particle filter weight-normalization stage (modelled from
  the specification, as that module ships outside the sources at hand).

Vectors are `Fin n → ℚ` and matrices are Mathlib `Matrix` values over `ℚ`;
`jnp.linalg.solve`/`jnp.linalg.inv` are embedded through an explicit
adjugate-based inverse, which agrees with Mathlib's `Matrix.inv` over `ℚ`.
-/

namespace JSL

open Matrix

/-- State/observation vectors: the embedding of 1-d `jnp` arrays. -/
abbrev Vec (n : ℕ) := Fin n → ℚ

/-- Rectangular rational matrices: the embedding of 2-d `jnp` arrays. -/
abbrev MatR (m n : ℕ) := Matrix (Fin m) (Fin n) ℚ

/-- Square rational matrices. -/
abbrev Sq (n : ℕ) := Matrix (Fin n) (Fin n) ℚ

/-- Embedding of `jnp.linalg.inv`: the adjugate-based inverse, which is a
computable form of Mathlib's `Matrix.inv` over the rationals. -/
def matInv {n : ℕ} (A : Sq n) : Sq n := (A.det)⁻¹ • A.adjugate

/-- Embedding of `jnp.linalg.solve A B`, which returns `A⁻¹ * B`. -/
def linSolve {n m : ℕ} (A : Sq n) (B : MatR n m) : MatR n m := matInv A * B

theorem matInv_eq_inv {n : ℕ} (A : Sq n) : matInv A = A⁻¹ := by
  rw [Matrix.inv_def, Ring.inverse_eq_inv]
  rfl

/-- A rational matrix is symmetric positive semi-definite: equal to its
transpose and with a non-negative quadratic form. -/
def IsPSD {n : ℕ} (A : Sq n) : Prop :=
  A.IsSymm ∧ ∀ v : Vec n, 0 ≤ v ⬝ᵥ A.mulVec v

/-! ## Extended Kalman smoother (`jsl/nlds/extended_kalman_smoother.py`)

`smooth_step` receives the backward carry `(mean_next, cov_next, t)` and the
forward-filter entry `(mean_kf, cov_kf)`; `Dfz` is the Jacobian of the
transition `fz`, `Qz` the process-noise covariance, and `eps` the
regularization constant added to the predicted covariance before inversion.
-/

/-- The one-step-ahead predicted covariance recomputed inside `smooth_step`:
`Dfz(mean_kf) @ cov_kf @ Dfz(mean_kf).T + Qz(mean_kf, t)`. -/
def predCov {n : ℕ} (Dfz : Vec n → Sq n) (Qz : Vec n → ℤ → Sq n)
    (mean_kf : Vec n) (cov_kf : Sq n) (t : ℤ) : Sq n :=
  Dfz mean_kf * cov_kf * (Dfz mean_kf)ᵀ + Qz mean_kf t

/-- The smoother gain exactly as `smooth_step` computes it:
`jnp.linalg.solve(cov_next_hat_eps, Dfz(mean_kf).T) @ cov_kf`. -/
def smoothGain {n : ℕ} (Dfz : Vec n → Sq n) (Qz : Vec n → ℤ → Sq n) (eps : ℚ)
    (mean_kf : Vec n) (cov_kf : Sq n) (t : ℤ) : Sq n :=
  linSolve (predCov Dfz Qz mean_kf cov_kf t + eps • (1 : Sq n))
    (Dfz mean_kf)ᵀ * cov_kf

/-- One backward step of the extended RTS smoother, transcribed from
`smooth_step`.  Returns the new carry and the emitted history entry. -/
def smooth_step {n : ℕ} (fz : Vec n → Vec n) (Dfz : Vec n → Sq n)
    (Qz : Vec n → ℤ → Sq n) (eps : ℚ)
    (state : Vec n × Sq n × ℤ) (xs : Vec n × Sq n) :
    (Vec n × Sq n × ℤ) × (Vec n × Sq n) :=
  let mean_next := state.1
  let cov_next := state.2.1
  let t := state.2.2
  let mean_kf := xs.1
  let cov_kf := xs.2
  let mean_next_hat := fz mean_kf
  let cov_next_hat := predCov Dfz Qz mean_kf cov_kf t
  let kalman_gain := smoothGain Dfz Qz eps mean_kf cov_kf t
  let mean_prev := mean_kf + kalman_gain.mulVec (mean_next - mean_next_hat)
  let cov_prev := cov_kf + kalman_gain * (cov_next - cov_next_hat) * kalman_gainᵀ
  ((mean_prev, cov_prev, t - 1), (mean_prev, cov_prev))

/-- Embedding of `jax.lax.scan` with `reverse=True`: the carry is folded over
the input sequence from its last element to its first, and the emitted
outputs are stacked at their original positions. -/
def scanRev {C X Y : Type} (f : C → X → C × Y) : C → List X → C × List Y
  | c, [] => (c, [])
  | c, x :: xs =>
      let r := scanRev f c xs
      let s := f r.1 x
      (s.1, s.2 :: r.2)

/-- The backward pass of `smooth`: the forward-filter history is split into
its last entry and the rest, the scan is seeded with the last filtered
estimate (at time index `len(rest) - 1`), and runs in reverse over the rest.
This returns the emitted entries (`hist_smooth` in the source), covering
timesteps `0 .. T-2`. -/
def eks_backward {n : ℕ} (fz : Vec n → Vec n) (Dfz : Vec n → Sq n)
    (Qz : Vec n → ℤ → Sq n) (eps : ℚ)
    (hist : List (Vec n × Sq n)) : List (Vec n × Sq n) :=
  match hist.getLast? with
  | none => []
  | some last =>
      let rest := hist.dropLast
      let seed : Vec n × Sq n × ℤ := (last.1, last.2, (rest.length : ℤ) - 1)
      (scanRev (smooth_step fz Dfz Qz eps) seed rest).2

/-- The full smoothed trajectory: the smoothed estimate at the final timestep
is the scan seed, i.e. the filtered terminal estimate, and the backward pass
emits the estimates for the earlier timesteps. -/
def eks_smoothed_all {n : ℕ} (fz : Vec n → Vec n) (Dfz : Vec n → Sq n)
    (Qz : Vec n → ℤ → Sq n) (eps : ℚ)
    (hist : List (Vec n × Sq n)) : List (Vec n × Sq n) :=
  eks_backward fz Dfz Qz eps hist ++ hist.getLast?.toList

theorem scanRev_length {C X Y : Type} (f : C → X → C × Y) (c : C)
    (xs : List X) : (scanRev f c xs).2.length = xs.length := by
  induction xs generalizing c with
  | nil => rfl
  | cons x xs ih => simp [scanRev, ih]

/-! ### A concrete smoothing instance

A linear transition with Jacobian `A = [[0,10],[0,0]]`, filtered covariance
`diag(1,100)`, identity process noise and `ε = 1`, used to evaluate one
backward step of the smoother on explicit numbers. -/

/-- The Jacobian value of the example transition. -/
def exA : Sq 2 := !![0, 10; 0, 0]

/-- The example transition `z ↦ A z`. -/
def exFz : Vec 2 → Vec 2 := fun z => exA.mulVec z

/-- Its (constant) Jacobian, as `jax.jacrev` would produce it. -/
def exDfz : Vec 2 → Sq 2 := fun _ => exA

/-- Identity process-noise covariance. -/
def exQz : Vec 2 → ℤ → Sq 2 := fun _ _ => 1

/-- The example filtered covariance `diag(1, 100)`. -/
def exCovKf : Sq 2 := !![1, 0; 0, 100]

/-- The example filtered mean. -/
def exMean : Vec 2 := 0

theorem exAT_eval : exAᵀ = !![0, 0; 10, 0] := by
  rw [exA]; ext i j; fin_cases i <;> fin_cases j <;> simp

theorem exPredCov_eval :
    predCov exDfz exQz exMean exCovKf 0 = !![10001, 0; 0, 1] := by
  have h1 : exA * exCovKf = !![0, 1000; 0, 0] := by
    rw [exA, exCovKf, Matrix.mul_fin_two]; norm_num
  rw [predCov]
  show exA * exCovKf * exAᵀ + exQz exMean 0 = _
  rw [h1, exAT_eval, Matrix.mul_fin_two]
  show _ + (1 : Sq 2) = _
  rw [Matrix.one_fin_two]
  ext i j
  fin_cases i <;> fin_cases j <;> simp <;> norm_num

theorem exPe_eval :
    predCov exDfz exQz exMean exCovKf 0 + (1 : ℚ) • (1 : Sq 2)
      = !![10002, 0; 0, 2] := by
  rw [exPredCov_eval, one_smul, Matrix.one_fin_two]
  ext i j
  fin_cases i <;> fin_cases j <;> simp <;> norm_num

theorem exPeInv_eval :
    matInv !![(10002 : ℚ), 0; 0, 2] = !![1/10002, 0; 0, 1/2] := by
  rw [matInv, Matrix.det_fin_two_of, Matrix.adjugate_fin_two_of]
  ext i j
  fin_cases i <;> fin_cases j <;> simp <;> norm_num

theorem exGain_eval :
    smoothGain exDfz exQz 1 exMean exCovKf 0 = !![0, 0; 5, 0] := by
  rw [smoothGain, linSolve, exPe_eval, exPeInv_eval]
  show _ * (exDfz exMean)ᵀ * exCovKf = _
  show _ * exAᵀ * exCovKf = _
  rw [exAT_eval, exCovKf, Matrix.mul_fin_two, Matrix.mul_fin_two]
  norm_num

theorem exGainT_eval :
    (!![(0 : ℚ), 0; 5, 0])ᵀ = !![0, 5; 0, 0] := by
  ext i j; fin_cases i <;> fin_cases j <;> simp

/-- The covariance emitted by one backward step at the example input, with
incoming smoothed covariance `0`. -/
theorem exSmoothCov_eval :
    (smooth_step exFz exDfz exQz 1 ((0 : Vec 2), (0 : Sq 2), (0 : ℤ))
        (exMean, exCovKf)).2.2 = !![1, 0; 0, -249925] := by
  show exCovKf + smoothGain exDfz exQz 1 exMean exCovKf 0 *
      ((0 : Sq 2) - predCov exDfz exQz exMean exCovKf 0) *
      (smoothGain exDfz exQz 1 exMean exCovKf 0)ᵀ = _
  rw [exGain_eval, exGainT_eval, exPredCov_eval, exCovKf, zero_sub,
    Matrix.mul_neg, Matrix.neg_mul]
  have h1 : !![(0 : ℚ), 0; 5, 0] * !![10001, 0; 0, 1] = !![0, 0; 50005, 0] := by
    rw [Matrix.mul_fin_two]; norm_num
  rw [h1]
  have h2 : !![(0 : ℚ), 0; 50005, 0] * !![0, 5; 0, 0] = !![0, 0; 0, 250025] := by
    rw [Matrix.mul_fin_two]; norm_num
  rw [h2]
  ext i j
  fin_cases i <;> fin_cases j <;> simp <;> norm_num

/-- A one-entry forward-filter history used as a concrete smoothing input. -/
def exHist1 : List (Vec 1 × Sq 1) := [(0, 1)]

/-- Claim C1: the claim states that the backward gain equals
`cov[t] · Aᵀ · inverse(cov_pred[t+1] + ε·I)`.  The code computes
`solve(cov_pred[t+1] + ε·I, Aᵀ) @ cov[t]`, i.e. the inverse multiplies on
the left.  At the concrete input above the code's gain is `[[0,0],[5,0]]`
while the claimed formula gives `[[0,0],[1000/10002,0]]`, so the claim
fails on the code. -/
theorem c1_smoother_gain_ne_claimed_gain :
    smoothGain exDfz exQz 1 exMean exCovKf 0 ≠
      exCovKf * (exDfz exMean)ᵀ *
        matInv (predCov exDfz exQz exMean exCovKf 0 + (1 : ℚ) • (1 : Sq 2)) := by
  have hr : exCovKf * (exDfz exMean)ᵀ *
      matInv (predCov exDfz exQz exMean exCovKf 0 + (1 : ℚ) • (1 : Sq 2))
      = !![0, 0; 1000/10002, 0] := by
    rw [exPe_eval, exPeInv_eval]
    show exCovKf * exAᵀ * _ = _
    rw [exAT_eval, exCovKf, Matrix.mul_fin_two, Matrix.mul_fin_two]
    norm_num
  rw [exGain_eval, hr]
  intro h
  have h10 := congrFun (congrFun h 1) 0
  norm_num at h10

/-- Claim C2: for every transition, Jacobian, process noise, regularization
constant and nonempty forward-filter history, the smoothed trajectory has
one entry per filtered entry and its final entry equals the filtered final
entry: the backward pass is seeded with the filtered terminal estimate and
never recomputes it. -/
theorem c2_eks_terminal_estimate_is_filtered {n : ℕ} (fz : Vec n → Vec n)
    (Dfz : Vec n → Sq n) (Qz : Vec n → ℤ → Sq n) (eps : ℚ)
    (hist : List (Vec n × Sq n)) (h : hist ≠ []) :
    (eks_smoothed_all fz Dfz Qz eps hist).getLast? = hist.getLast? ∧
      (eks_smoothed_all fz Dfz Qz eps hist).length = hist.length := by
  obtain ⟨last, hlast⟩ := Option.isSome_iff_exists.mp (List.getLast?_isSome.mpr h)
  constructor
  · rw [eks_smoothed_all, hlast]
    simp
  · rw [eks_smoothed_all, eks_backward, hlast]
    simp only [List.length_append, scanRev_length, List.length_dropLast,
      Option.toList_some, List.length_singleton]
    have hpos : 0 < hist.length := List.length_pos.mpr h
    omega

theorem c2_eks_terminal_estimate_is_filtered_witness :
    exHist1 ≠ [] ∧
      ((eks_smoothed_all id (fun _ => 1) (fun _ _ => 1) 1 exHist1).getLast?
          = exHist1.getLast? ∧
        (eks_smoothed_all id (fun _ => 1) (fun _ _ => 1) 1 exHist1).length
          = exHist1.length) :=
  ⟨by simp [exHist1],
    c2_eks_terminal_estimate_is_filtered id (fun _ => 1) (fun _ _ => 1) 1
      exHist1 (by simp [exHist1])⟩

/-- Claim C5: at the concrete input above, the filtered covariance
`diag(1,100)`, the incoming smoothed covariance `0` and the predicted
covariance `diag(10001,1)` are all symmetric positive semi-definite, yet
the covariance produced by the backward step is `diag(1, -249925)`, which
is not positive semi-definite: the backward step does not preserve the PSD
invariant. -/
theorem c5_smooth_step_output_not_psd :
    IsPSD exCovKf ∧ IsPSD (0 : Sq 2) ∧
      IsPSD (predCov exDfz exQz exMean exCovKf 0) ∧
      ¬ IsPSD ((smooth_step exFz exDfz exQz 1 ((0 : Vec 2), (0 : Sq 2), (0 : ℤ))
          (exMean, exCovKf)).2.2) := by
  refine ⟨⟨?_, ?_⟩, ⟨?_, ?_⟩, ⟨?_, ?_⟩, ?_⟩
  · rw [Matrix.IsSymm, exCovKf]
    ext i j
    fin_cases i <;> fin_cases j <;> simp
  · intro v
    rw [exCovKf]
    have h : v ⬝ᵥ (!![(1 : ℚ), 0; 0, 100]).mulVec v
        = v 0 * v 0 + 100 * (v 1 * v 1) := by
      simp [Matrix.dotProduct, Matrix.mulVec, Fin.sum_univ_two]
      ring
    rw [h]
    nlinarith [mul_self_nonneg (v 0), mul_self_nonneg (v 1)]
  · rw [Matrix.IsSymm, Matrix.transpose_zero]
  · intro v
    simp [Matrix.zero_mulVec]
  · rw [Matrix.IsSymm, exPredCov_eval]
    ext i j
    fin_cases i <;> fin_cases j <;> simp
  · intro v
    rw [exPredCov_eval]
    have h : v ⬝ᵥ (!![(10001 : ℚ), 0; 0, 1]).mulVec v
        = 10001 * (v 0 * v 0) + v 1 * v 1 := by
      simp [Matrix.dotProduct, Matrix.mulVec, Fin.sum_univ_two]
      ring
    rw [h]
    nlinarith [mul_self_nonneg (v 0), mul_self_nonneg (v 1)]
  · intro hpsd
    rw [exSmoothCov_eval] at hpsd
    have h := hpsd.2 ![0, 1]
    norm_num [Matrix.dotProduct, Matrix.mulVec, Fin.sum_univ_two] at h

/-! ## Diagonal EKF / NDEKF (`jsl/nlds/diagonal_extended_kalman_filter.py`)

The carry of the scan is `(mu_t, Vt, t)` where `Vt` is an `n`-length
variance vector.  `fx` and its Jacobian `Dfx` (with respect to the state)
take the per-step covariates as a second argument, mirroring
`fx(mu_t_cond, *obs)`.  The process-noise function `Qz` is modelled with an
`Option ℕ` time argument because the source calls it both as
`Q(init_state)` (no time supplied) and as `Q(mu_t, t)`. -/

/-- One call made by the filter to the model's process-noise covariance
function, recording the state argument and the time argument if one was
supplied at that call site. -/
structure QzCall (n : ℕ) where
  state : Vec n
  time : Option ℕ

/-- The innovation term `jnp.einsum("id,jd,d->ij", Ht, Ht, Vt)`. -/
def dekf_innov {n m : ℕ} (Ht : MatR m n) (V : Vec n) : Sq m :=
  Matrix.of fun i j => ∑ d, Ht i d * Ht j d * V d

/-- One step of the diagonal EKF, transcribed from `filter_step`.  `A` is
`jnp.linalg.inv(Rt + einsum("id,jd,d->ij", Ht, Ht, Vt))`, the mean update is
`einsum("s,is,ij,j->s", Vt, Ht, A, xi)` and the variance update is
`einsum("s,is,ij,is,s->s", Vt, Ht, A, Ht, Vt)` (note the repeated `is`
subscript, transcribed literally). -/
def dekf_filter_step {n m : ℕ} {O : Type} (fz : Vec n → Vec n)
    (fx : Vec n → O → Vec m) (Dfx : Vec n → O → MatR m n)
    (Rf : Vec n → O → Sq m) (Qf : Vec n → Option ℕ → Vec n)
    (state : Vec n × Vec n × ℕ) (xs : Vec m × O) :
    (Vec n × Vec n × ℕ) × Vec n :=
  let mu := state.1
  let V := state.2.1
  let t := state.2.2
  let mu_cond := fz mu
  let Ht := Dfx mu_cond xs.2
  let Rt := Rf mu_cond xs.2
  let xi := xs.1 - fx mu_cond xs.2
  let A := matInv (Rt + dekf_innov Ht V)
  let mu_new : Vec n := fun s => mu_cond s + ∑ i, ∑ j, V s * Ht i s * A i j * xi j
  let V_new : Vec n := fun s =>
    V s - (∑ i, ∑ j, V s * Ht i s * A i j * Ht i s * V s) + Qf mu_new (some t) s
  ((mu_new, V_new, t + 1), mu_new)

/-- The full diagonal EKF run, transcribed from `filter`: the initial
variance vector is `Q(init_state)` — called without a time argument — when
no `Vinit` is given, and each step calls `Q(mu_t, t)`.  Alongside the final
carry and the filtered-mean history, the list of all calls made to the
process-noise function is returned. -/
def dekf_filter {n m : ℕ} {O : Type} (fz : Vec n → Vec n)
    (fx : Vec n → O → Vec m) (Dfx : Vec n → O → MatR m n)
    (Rf : Vec n → O → Sq m) (Qf : Vec n → Option ℕ → Vec n)
    (init_state : Vec n) (Vinit : Option (Vec n))
    (sample_obs : List (Vec m × O)) :
    ((Vec n × Vec n × ℕ) × List (Vec n)) × List (QzCall n) :=
  let V0 := match Vinit with
    | none => Qf init_state none
    | some v => v
  let initCalls : List (QzCall n) := match Vinit with
    | none => [⟨init_state, none⟩]
    | some _ => []
  let step := fun (acc : (Vec n × Vec n × ℕ) × List (Vec n) × List (QzCall n))
      (x : Vec m × O) =>
    let t := acc.1.2.2
    let r := dekf_filter_step fz fx Dfx Rf Qf acc.1 x
    (r.1, acc.2.1 ++ [r.2], acc.2.2 ++ [⟨r.1.1, some t⟩])
  let fin := sample_obs.foldl step ((init_state, V0, 0), [], initCalls)
  ((fin.1, fin.2.1), fin.2.2)

/-- The NDEKF step as the claim describes it: state uncertainty is an
`n`-length variance vector, the only matrix inversion is of the
observation-space innovation covariance `Rt + Ht·diag(V)·Htᵀ`
(an `obs_size × obs_size` matrix), the mean is corrected through the gain
`diag(V)·Htᵀ·A` built from elementwise products of the Jacobian rows with
the variance vector, and the variance update is elementwise in `s`. -/
def dekf_filter_step_claim {n m : ℕ} {O : Type} (fz : Vec n → Vec n)
    (fx : Vec n → O → Vec m) (Dfx : Vec n → O → MatR m n)
    (Rf : Vec n → O → Sq m) (Qf : Vec n → Option ℕ → Vec n)
    (state : Vec n × Vec n × ℕ) (xs : Vec m × O) :
    (Vec n × Vec n × ℕ) × Vec n :=
  let mu := state.1
  let V := state.2.1
  let t := state.2.2
  let mu_cond := fz mu
  let Ht := Dfx mu_cond xs.2
  let Rt := Rf mu_cond xs.2
  let xi := xs.1 - fx mu_cond xs.2
  let A := matInv (Rt + Ht * Matrix.diagonal V * Htᵀ)
  let mu_new : Vec n := mu_cond + (Matrix.diagonal V * Htᵀ * A).mulVec xi
  let V_new : Vec n := fun s =>
    V s - V s * V s * (∑ i, Ht i s * Ht i s * (∑ j, A i j))
      + Qf mu_new (some t) s
  ((mu_new, V_new, t + 1), mu_new)

theorem dekf_innov_eq_matmul {n m : ℕ} (Ht : MatR m n) (V : Vec n) :
    dekf_innov Ht V = Ht * Matrix.diagonal V * Htᵀ := by
  ext i j
  rw [Matrix.mul_apply]
  simp only [dekf_innov, Matrix.of_apply, Matrix.mul_diagonal,
    Matrix.transpose_apply]
  exact Finset.sum_congr rfl fun d _ => by ring

theorem dekf_mean_form {n m : ℕ} (mu_cond V : Vec n) (Ht : MatR m n)
    (A : Sq m) (xi : Vec m) :
    (fun s => mu_cond s + ∑ i, ∑ j, V s * Ht i s * A i j * xi j)
      = mu_cond + (Matrix.diagonal V * Htᵀ * A).mulVec xi := by
  funext s
  rw [Pi.add_apply]
  congr 1
  simp only [Matrix.mulVec, Matrix.dotProduct, Matrix.mul_apply,
    Matrix.transpose_apply]
  rw [Finset.sum_comm]
  refine Finset.sum_congr rfl fun j _ => ?_
  rw [Finset.sum_mul]
  refine Finset.sum_congr rfl fun i _ => ?_
  have hd : ∑ x, Matrix.diagonal V s x * Ht i x = V s * Ht i s := by
    simp [Matrix.diagonal_apply, ite_mul]
  rw [hd]

theorem dekf_var_form {n m : ℕ} (V : Vec n) (Ht : MatR m n) (A : Sq m)
    (s : Fin n) :
    ∑ i, ∑ j, V s * Ht i s * A i j * Ht i s * V s
      = V s * V s * (∑ i, Ht i s * Ht i s * (∑ j, A i j)) := by
  rw [Finset.mul_sum]
  refine Finset.sum_congr rfl fun i _ => ?_
  calc ∑ j, V s * Ht i s * A i j * Ht i s * V s
      = ∑ j, V s * V s * (Ht i s * Ht i s) * A i j :=
        Finset.sum_congr rfl fun j _ => by ring
    _ = V s * V s * (Ht i s * Ht i s) * ∑ j, A i j :=
        (Finset.mul_sum _ _ _).symm
    _ = V s * V s * (Ht i s * Ht i s * ∑ j, A i j) := by ring

/-- Claim C3: in every step of the diagonal EKF the uncertainty is an
`n`-length variance vector (the scan carry has type `Vec n × Vec n × ℕ`),
and the step coincides with the claim-side form in which the only matrix
inversion is of the `obs_size × obs_size` innovation covariance
`Rt + Ht·diag(V)·Htᵀ` and the mean/variance updates are built from
elementwise products of the Jacobian rows with the variance vector. -/
theorem c3_dekf_step_is_diagonal_form {n m : ℕ} {O : Type}
    (fz : Vec n → Vec n) (fx : Vec n → O → Vec m)
    (Dfx : Vec n → O → MatR m n) (Rf : Vec n → O → Sq m)
    (Qf : Vec n → Option ℕ → Vec n)
    (state : Vec n × Vec n × ℕ) (xs : Vec m × O) :
    dekf_filter_step fz fx Dfx Rf Qf state xs
      = dekf_filter_step_claim fz fx Dfx Rf Qf state xs := by
  simp only [dekf_filter_step, dekf_filter_step_claim, dekf_innov_eq_matmul]
  have hmean := dekf_mean_form (fz state.1) state.2.1 (Dfx (fz state.1) xs.2)
    (matInv (Rf (fz state.1) xs.2 + Dfx (fz state.1) xs.2 *
      Matrix.diagonal state.2.1 * (Dfx (fz state.1) xs.2)ᵀ))
    (xs.1 - fx (fz state.1) xs.2)
  rw [hmean]
  congr 1
  congr 1
  congr 1
  funext s
  rw [dekf_var_form]

/-- A 1-dimensional model instance: identity transition. -/
def d1fz : Vec 1 → Vec 1 := id

/-- Identity observation function (no covariates used). -/
def d1fx : Vec 1 → Unit → Vec 1 := fun z _ => z

/-- Its Jacobian with respect to the state. -/
def d1Dfx : Vec 1 → Unit → MatR 1 1 := fun _ _ => 1

/-- Unit observation-noise covariance. -/
def d1Rf : Vec 1 → Unit → Sq 1 := fun _ _ => 1

/-- Unit process-noise variance vector. -/
def d1Qf : Vec 1 → Option ℕ → Vec 1 := fun _ _ _ => 1

/-- Claim C6: evidence against the claim that every evaluation of the
process-noise covariance function supplies both a state and a time
argument: with `Vinit = None` the initialization evaluates
`Q(init_state)` with no time argument (`Vt = Q(init_state) if Vinit is
None else Vinit`), so the run's call trace contains a call whose time
argument is absent, while only the per-step calls `Q(mu_t, t)` supply
both. -/
theorem c6_dekf_initial_qz_call_omits_time :
    ∃ c ∈ (dekf_filter d1fz d1fx d1Dfx d1Rf d1Qf 0 none
        [((0 : Vec 1), ())]).2, c.time = none := by
  refine ⟨⟨0, none⟩, ?_, rfl⟩
  simp [dekf_filter]

/-! ## EEKF agent (`jsl/sent/agents/eekf.py`)

The class body defines `update`, `predict` and `reset` twice.  Both
definitions of each method are transcribed below (`..._fst` for the first,
`..._snd` for the second), parameterized over the library functions they
invoke: `filterRun` stands for `ExtendedKalmanFilter.filter` and
`mkFilter` for the `ExtendedKalmanFilter` constructor (that module is
outside the sources at hand), and `matmulT` for
`x @ self.mu.reshape((-1, 1))`.  Python resolves an attribute to the last
assignment executed in the class body, which is modelled by
`eekfResolve`. -/

/-- The mutable attributes of an `EEKF` agent instance, as set up by
`__init__`/`reset`. -/
structure EEKFState (Trans Obs NoiseM NoiseF FilterT Mean Cov : Type) where
  fz : Trans
  fx : Obs
  Pt : NoiseM
  Rt : NoiseF
  return_params : List String
  prior_mean : Mean
  prior_cov : Cov
  eekf : FilterT
  mu : Mean
  Sigma : Cov

/-- The first `update` definition (lines 33-41): runs the filter from the
current mean and the *prior* covariance, stores the returned mean and
covariance, and returns the history parameters. -/
def EEKF_update_fst {Trans Obs NoiseM NoiseF FilterT Mean Cov Xt Yt Par : Type}
    (filterRun : FilterT → Mean → Yt → Xt → Cov → List String → (Mean × Cov) × Par)
    (s : EEKFState Trans Obs NoiseM NoiseF FilterT Mean Cov) (X : Xt) (y : Yt) :
    Par × EEKFState Trans Obs NoiseM NoiseF FilterT Mean Cov :=
  let r := filterRun s.eekf s.mu y X s.prior_cov s.return_params
  (r.2, { s with mu := r.1.1, Sigma := r.1.2 })

/-- The second `update` definition (lines 51-59), which shadows the
first. -/
def EEKF_update_snd {Trans Obs NoiseM NoiseF FilterT Mean Cov Xt Yt Par : Type}
    (filterRun : FilterT → Mean → Yt → Xt → Cov → List String → (Mean × Cov) × Par)
    (s : EEKFState Trans Obs NoiseM NoiseF FilterT Mean Cov) (X : Xt) (y : Yt) :
    Par × EEKFState Trans Obs NoiseM NoiseF FilterT Mean Cov :=
  let r := filterRun s.eekf s.mu y X s.prior_cov s.return_params
  (r.2, { s with mu := r.1.1, Sigma := r.1.2 })

/-- The first `predict` definition (lines 43-44). -/
def EEKF_predict_fst {Trans Obs NoiseM NoiseF FilterT Mean Cov Xt Pred : Type}
    (matmulT : Xt → Mean → Pred)
    (s : EEKFState Trans Obs NoiseM NoiseF FilterT Mean Cov) (x : Xt) : Pred :=
  matmulT x s.mu

/-- The second `predict` definition (lines 61-62), which shadows the
first. -/
def EEKF_predict_snd {Trans Obs NoiseM NoiseF FilterT Mean Cov Xt Pred : Type}
    (matmulT : Xt → Mean → Pred)
    (s : EEKFState Trans Obs NoiseM NoiseF FilterT Mean Cov) (x : Xt) : Pred :=
  matmulT x s.mu

/-- The first `reset` definition (lines 46-49): rebuilds the filter object
and restores the prior mean and covariance. -/
def EEKF_reset_fst {Trans Obs NoiseM NoiseF FilterT Mean Cov Key : Type}
    (mkFilter : Trans → Obs → NoiseM → NoiseF → FilterT)
    (s : EEKFState Trans Obs NoiseM NoiseF FilterT Mean Cov) (key : Key) :
    EEKFState Trans Obs NoiseM NoiseF FilterT Mean Cov :=
  { s with eekf := mkFilter s.fz s.fx s.Pt s.Rt,
           mu := s.prior_mean, Sigma := s.prior_cov }

/-- The second `reset` definition (lines 64-67), which shadows the
first. -/
def EEKF_reset_snd {Trans Obs NoiseM NoiseF FilterT Mean Cov Key : Type}
    (mkFilter : Trans → Obs → NoiseM → NoiseF → FilterT)
    (s : EEKFState Trans Obs NoiseM NoiseF FilterT Mean Cov) (key : Key) :
    EEKFState Trans Obs NoiseM NoiseF FilterT Mean Cov :=
  { s with eekf := mkFilter s.fz s.fx s.Pt s.Rt,
           mu := s.prior_mean, Sigma := s.prior_cov }

/-- The EEKF class body as a sequence of method assignments, in source
order: each entry is the method name and which textual definition (1 or 2)
the assignment installs. -/
def eekfClassBody : List (String × ℕ) :=
  [("update", 1), ("predict", 1), ("reset", 1),
   ("update", 2), ("predict", 2), ("reset", 2)]

/-- Python attribute resolution over a class body: the last assignment to
a name wins. -/
def eekfResolve (name : String) : Option ℕ :=
  ((eekfClassBody.filter (fun p => p.1 = name)).getLast?).map Prod.snd

/-- Claim C9: the class body installs each of `update`, `predict`, `reset`
twice and attribute resolution picks the second definition of each; and
each second definition agrees with the first on every argument, returning
the same value and producing the same agent state. -/
theorem c9_eekf_shadowing_definitions_coincide :
    (eekfResolve "update" = some 2 ∧ eekfResolve "predict" = some 2 ∧
      eekfResolve "reset" = some 2) ∧
    (∀ (Trans Obs NoiseM NoiseF FilterT Mean Cov Xt Yt Par : Type)
      (filterRun : FilterT → Mean → Yt → Xt → Cov → List String → (Mean × Cov) × Par)
      (s : EEKFState Trans Obs NoiseM NoiseF FilterT Mean Cov) (X : Xt) (y : Yt),
      EEKF_update_snd filterRun s X y = EEKF_update_fst filterRun s X y) ∧
    (∀ (Trans Obs NoiseM NoiseF FilterT Mean Cov Xt Pred : Type)
      (matmulT : Xt → Mean → Pred)
      (s : EEKFState Trans Obs NoiseM NoiseF FilterT Mean Cov) (x : Xt),
      EEKF_predict_snd matmulT s x = EEKF_predict_fst matmulT s x) ∧
    (∀ (Trans Obs NoiseM NoiseF FilterT Mean Cov Key : Type)
      (mkFilter : Trans → Obs → NoiseM → NoiseF → FilterT)
      (s : EEKFState Trans Obs NoiseM NoiseF FilterT Mean Cov) (key : Key),
      EEKF_reset_snd mkFilter s key = EEKF_reset_fst mkFilter s key) :=
  ⟨⟨rfl, rfl, rfl⟩,
    fun _ _ _ _ _ _ _ _ _ _ _ _ _ _ => rfl,
    fun _ _ _ _ _ _ _ _ _ _ _ _ => rfl,
    fun _ _ _ _ _ _ _ _ _ _ _ => rfl⟩

/-- Claim C10: two agent states that agree on everything except the current
covariance `Sigma` produce, under `update` (the effective, second
definition), the same return value and end in identical states: the filter
is restarted from the prior covariance supplied at construction, never
from the agent's current `Sigma`, which is overwritten by the filter's
output. -/
theorem c10_eekf_update_independent_of_sigma :
    ∀ (Trans Obs NoiseM NoiseF FilterT Mean Cov Xt Yt Par : Type)
      (filterRun : FilterT → Mean → Yt → Xt → Cov → List String → (Mean × Cov) × Par)
      (s : EEKFState Trans Obs NoiseM NoiseF FilterT Mean Cov)
      (sigma : Cov) (X : Xt) (y : Yt),
      EEKF_update_snd filterRun { s with Sigma := sigma } X y
        = EEKF_update_snd filterRun s X y :=
  fun _ _ _ _ _ _ _ _ _ _ _ _ _ _ _ => rfl

/-! ## Bootstrap particle filter: weight degeneracy -/

/-- Failure conditions of a particle-filter step. -/
inductive PFError where
  | degeneracy
  deriving DecidableEq

/-- Modelled from the spec: the weighting-and-normalization stage of the
bootstrap particle-filter step (the module `jsl/nlds/bootstrap_filter.py`
is not among the sources at hand; §4.5 of the specification defines the
step).  Each propagated particle is weighted by the observation likelihood
of the actual observation; if every weight underflows to zero the weight
vector cannot be normalized and the step fails with a degeneracy error
(rather than dividing by a zero total, resampling from an undefined
distribution, or returning NaN); otherwise the weights are normalized to
sum to 1 and resampling proceeds from them. -/
def pf_normalize_weights {n : ℕ} (likelihood : Vec n → ℚ)
    (particles : List (Vec n)) : Except PFError (List ℚ) :=
  let ws := particles.map likelihood
  let s := ws.sum
  if s = 0 then Except.error PFError.degeneracy
  else Except.ok (ws.map (fun w => w / s))

/-- Claim C8: if the observation likelihood is (numerically) zero at every
particle, the bootstrap step signals a degeneracy error instead of
normalizing. -/
theorem c8_pf_all_zero_weights_signal_degeneracy {n : ℕ}
    (likelihood : Vec n → ℚ) (particles : List (Vec n))
    (h : ∀ p ∈ particles, likelihood p = 0) :
    pf_normalize_weights likelihood particles
      = Except.error PFError.degeneracy := by
  have hs : (particles.map likelihood).sum = 0 := by
    refine List.sum_eq_zero ?_
    intro x hx
    obtain ⟨p, hp, rfl⟩ := List.mem_map.mp hx
    exact h p hp
  simp [pf_normalize_weights, hs]

theorem c8_pf_all_zero_weights_signal_degeneracy_witness :
    (∀ p ∈ [(0 : Vec 1)], (fun (_ : Vec 1) => (0 : ℚ)) p = 0) ∧
      pf_normalize_weights (fun (_ : Vec 1) => (0 : ℚ)) [(0 : Vec 1)]
        = Except.error PFError.degeneracy :=
  ⟨by simp,
    c8_pf_all_zero_weights_signal_degeneracy (fun _ => 0) [(0 : Vec 1)]
      (by simp)⟩

/-! ## Online KF for linear regression (`jsl/demos/linreg_kf.py`)

`kf_linreg` drives a Kalman filter whose per-step observation matrix is
the feature row `X[t]` (a `1 × d` matrix `C(t) = X[t][None, ...]`) and
whose per-step observation is the scalar `y[t]`.  The `KalmanFilter` class
lives in `jsl/lds/kalman_filter.py`, which is not among the sources at
hand, so the per-step recursion is modelled from the specification §4.2,
specialized to a one-row observation matrix (so the innovation covariance
`S` is a scalar): predict `mean_pred = A·mean`, `cov_pred = A·cov·Aᵀ + Q`;
update `S = x⬝(cov_pred x) + R`, gain `K = S⁻¹·(cov_pred x)`,
`mean = mean_pred + (y - x⬝mean_pred)·K`,
`cov = (I - K xᵀ)·cov_pred = cov_pred - (K xᵀ)·cov_pred`. -/

/-- Modelled from the spec: one Kalman predict/update step for a scalar
observation with feature row `x` (`jsl/lds/kalman_filter.py` is not among
the sources at hand). -/
def kalman_step {d : ℕ} (F Q : Sq d) (R : ℚ) (state : Vec d × Sq d)
    (obs : Vec d × ℚ) : Vec d × Sq d :=
  let mu_pred := F.mulVec state.1
  let cov_pred := F * state.2 * Fᵀ + Q
  let x := obs.1
  let S := x ⬝ᵥ cov_pred.mulVec x + R
  let K := S⁻¹ • cov_pred.mulVec x
  let mu := mu_pred + (obs.2 - x ⬝ᵥ mu_pred) • K
  let cov := cov_pred - Matrix.vecMulVec K x * cov_pred
  (mu, cov)

/-- Transcription of `kf_linreg` from `jsl/demos/linreg_kf.py`: scan the
Kalman step over the rows of `X` paired with the entries of `y`, starting
from the prior; the claim concerns the final state, i.e. the last history
entry. -/
def kf_linreg {d : ℕ} (F Q : Sq d) (R : ℚ) (mu0 : Vec d) (Sigma0 : Sq d)
    (data : List (Vec d × ℚ)) : Vec d × Sq d :=
  data.foldl (kalman_step F Q R) (mu0, Sigma0)

/-- The Gram matrix `X.T @ X` of the feature rows. -/
def gram {d : ℕ} (data : List (Vec d × ℚ)) : Sq d :=
  (data.map (fun p => Matrix.vecMulVec p.1 p.1)).sum

/-- The moment vector `X.T @ y`. -/
def xty {d : ℕ} (data : List (Vec d × ℚ)) : Vec d :=
  (data.map (fun p => p.2 • p.1)).sum

/-- Transcription of `posterior_lreg` from `jsl/demos/linreg_kf.py`:
`Sn_bayes_inv = inv(Sigma0) + X.T @ X / R`, `Sn_bayes = inv(Sn_bayes_inv)`,
`mn_bayes = Sn_bayes @ (inv(Sigma0) @ mu0 + X.T @ y / R)`. -/
def posterior_lreg {d : ℕ} (R : ℚ) (mu0 : Vec d) (Sigma0 : Sq d)
    (data : List (Vec d × ℚ)) : Vec d × Sq d :=
  let Sn_bayes_inv := matInv Sigma0 + R⁻¹ • gram data
  let Sn_bayes := matInv Sn_bayes_inv
  (Sn_bayes.mulVec ((matInv Sigma0).mulVec mu0 + R⁻¹ • xty data), Sn_bayes)

/-! ### Outer-product algebra over `ℚ` -/

theorem vecMulVec_mul_mat {d : ℕ} (u v : Vec d) (A : Sq d) :
    Matrix.vecMulVec u v * A = Matrix.vecMulVec u (Aᵀ.mulVec v) := by
  ext i j
  simp only [Matrix.mul_apply, Matrix.vecMulVec_apply, Matrix.mulVec,
    Matrix.dotProduct, Matrix.transpose_apply, Finset.mul_sum]
  exact Finset.sum_congr rfl fun k _ => by ring

theorem mat_mul_vecMulVec {d : ℕ} (u v : Vec d) (A : Sq d) :
    A * Matrix.vecMulVec u v = Matrix.vecMulVec (A.mulVec u) v := by
  ext i j
  simp only [Matrix.mul_apply, Matrix.vecMulVec_apply, Matrix.mulVec,
    Matrix.dotProduct, Finset.sum_mul]
  exact Finset.sum_congr rfl fun k _ => by ring

theorem vecMulVec_mul_vecMulVec {d : ℕ} (u v w z : Vec d) :
    Matrix.vecMulVec u v * Matrix.vecMulVec w z
      = (v ⬝ᵥ w) • Matrix.vecMulVec u z := by
  ext i j
  simp only [Matrix.mul_apply, Matrix.vecMulVec_apply, Matrix.smul_apply,
    Matrix.dotProduct, smul_eq_mul, Finset.sum_mul, Finset.mul_sum]
  exact Finset.sum_congr rfl fun k _ => by ring

theorem vecMulVec_mulVec {d : ℕ} (u v w : Vec d) :
    (Matrix.vecMulVec u v).mulVec w = (v ⬝ᵥ w) • u := by
  funext i
  simp only [Matrix.mulVec, Matrix.dotProduct, Matrix.vecMulVec_apply,
    Pi.smul_apply, smul_eq_mul, Finset.mul_sum]
  rw [Finset.sum_mul]
  exact Finset.sum_congr rfl fun k _ => by ring

theorem smul_vecMulVec {d : ℕ} (c : ℚ) (u v : Vec d) :
    Matrix.vecMulVec (c • u) v = c • Matrix.vecMulVec u v := by
  ext i j
  simp only [Matrix.vecMulVec_apply, Matrix.smul_apply, Pi.smul_apply,
    smul_eq_mul]
  ring

theorem vecMulVec_transpose_self {d : ℕ} (u : Vec d) :
    (Matrix.vecMulVec u u)ᵀ = Matrix.vecMulVec u u := by
  ext i j
  simp only [Matrix.transpose_apply, Matrix.vecMulVec_apply]
  ring

theorem dot_mulVec_symm {d : ℕ} {A : Sq d} (hA : A.IsSymm) (x v : Vec d) :
    x ⬝ᵥ A.mulVec v = v ⬝ᵥ A.mulVec x := by
  simp only [Matrix.mulVec, Matrix.dotProduct, Finset.mul_sum]
  rw [Finset.sum_comm]
  refine Finset.sum_congr rfl fun j _ => Finset.sum_congr rfl fun i _ => ?_
  rw [hA.apply i j]
  ring

/-- Cauchy-Schwarz for the quadratic form of a symmetric PSD matrix. -/
theorem psd_quadform_cauchy_schwarz {d : ℕ} {A : Sq d} (hA : IsPSD A)
    (x v : Vec d) :
    (x ⬝ᵥ A.mulVec v) ^ 2 ≤ (x ⬝ᵥ A.mulVec x) * (v ⬝ᵥ A.mulVec v) := by
  have key : ∀ t : ℚ, 0 ≤ (x ⬝ᵥ A.mulVec x) * (t * t)
      + (-2 * (x ⬝ᵥ A.mulVec v)) * t + v ⬝ᵥ A.mulVec v := by
    intro t
    have h := hA.2 (t • x - v)
    have hexp : (t • x - v) ⬝ᵥ A.mulVec (t • x - v)
        = (x ⬝ᵥ A.mulVec x) * (t * t)
          + (-2 * (x ⬝ᵥ A.mulVec v)) * t + v ⬝ᵥ A.mulVec v := by
      rw [Matrix.mulVec_sub, Matrix.mulVec_smul]
      rw [Matrix.sub_dotProduct, Matrix.smul_dotProduct]
      rw [Matrix.dotProduct_sub, Matrix.dotProduct_sub]
      rw [Matrix.dotProduct_smul, Matrix.dotProduct_smul]
      rw [dot_mulVec_symm hA.1 v x]
      simp only [smul_eq_mul]
      ring
    rw [hexp] at h
    exact h
  have hd := discrim_le_zero key
  rw [discrim] at hd
  nlinarith [hd]

/-- With identity transition and zero process noise the Kalman step reduces
to the static rank-one update. -/
theorem kalman_step_static_form {d : ℕ} (R : ℚ) (x : Vec d) (yt : ℚ)
    (mu : Vec d) (Sg : Sq d) :
    kalman_step 1 0 R (mu, Sg) (x, yt)
      = (mu + ((yt - x ⬝ᵥ mu) * (x ⬝ᵥ Sg.mulVec x + R)⁻¹) • Sg.mulVec x,
         Sg - (x ⬝ᵥ Sg.mulVec x + R)⁻¹ •
           (Matrix.vecMulVec (Sg.mulVec x) x * Sg)) := by
  simp only [kalman_step, Matrix.one_mulVec, Matrix.transpose_one,
    Matrix.one_mul, Matrix.mul_one, add_zero]
  congr 1
  · rw [smul_smul, mul_comm]
  · rw [smul_vecMulVec, Matrix.smul_mul]

/-- One static update step preserves the information-form invariant: the
posterior covariance stays symmetric PSD, its inverse gains the rank-one
term `x xᵀ / R`, and the posterior mean stays `Σ·b` for the updated
information vector `b + (y/R)·x`. -/
theorem static_update_invariant {d : ℕ} {R : ℚ} (hR : 0 < R)
    (x : Vec d) (yt : ℚ) (Sg M : Sq d) (b : Vec d)
    (hps : IsPSD Sg) (hinv : Sg * M = 1) :
    IsPSD (Sg - (x ⬝ᵥ Sg.mulVec x + R)⁻¹ •
        (Matrix.vecMulVec (Sg.mulVec x) x * Sg)) ∧
      (Sg - (x ⬝ᵥ Sg.mulVec x + R)⁻¹ •
          (Matrix.vecMulVec (Sg.mulVec x) x * Sg))
        * (M + R⁻¹ • Matrix.vecMulVec x x) = 1 ∧
      Sg.mulVec b + ((yt - x ⬝ᵥ Sg.mulVec b)
            * (x ⬝ᵥ Sg.mulVec x + R)⁻¹) • Sg.mulVec x
        = (Sg - (x ⬝ᵥ Sg.mulVec x + R)⁻¹ •
            (Matrix.vecMulVec (Sg.mulVec x) x * Sg)).mulVec
              (b + (R⁻¹ * yt) • x) := by
  have ha : 0 ≤ x ⬝ᵥ Sg.mulVec x := hps.2 x
  have hS : 0 < x ⬝ᵥ Sg.mulVec x + R := by linarith
  have hSne : x ⬝ᵥ Sg.mulVec x + R ≠ 0 := ne_of_gt hS
  have hRne : R ≠ 0 := ne_of_gt hR
  have huu : Matrix.vecMulVec (Sg.mulVec x) x * Sg
      = Matrix.vecMulVec (Sg.mulVec x) (Sg.mulVec x) := by
    rw [vecMulVec_mul_mat, hps.1]
  refine ⟨⟨?_, ?_⟩, ?_, ?_⟩
  · -- symmetry of the updated covariance
    rw [huu, Matrix.IsSymm, Matrix.transpose_sub, Matrix.transpose_smul,
      vecMulVec_transpose_self, hps.1]
  · -- non-negativity of the updated quadratic form
    intro v
    rw [huu]
    have hform : v ⬝ᵥ (Sg - (x ⬝ᵥ Sg.mulVec x + R)⁻¹ •
        Matrix.vecMulVec (Sg.mulVec x) (Sg.mulVec x)).mulVec v
        = v ⬝ᵥ Sg.mulVec v - (x ⬝ᵥ Sg.mulVec x + R)⁻¹
            * ((x ⬝ᵥ Sg.mulVec v) * (x ⬝ᵥ Sg.mulVec v)) := by
      rw [Matrix.sub_mulVec, Matrix.smul_mulVec_assoc, vecMulVec_mulVec,
        Matrix.dotProduct_sub, Matrix.dotProduct_smul]
      have hub : Sg.mulVec x ⬝ᵥ v = x ⬝ᵥ Sg.mulVec v := by
        rw [Matrix.dotProduct_comm]
        exact dot_mulVec_symm hps.1 v x
      rw [Matrix.dotProduct_smul, hub, dot_mulVec_symm hps.1 v x]
      simp only [smul_eq_mul]
    rw [hform]
    have hcs := psd_quadform_cauchy_schwarz hps x v
    have hcv : 0 ≤ v ⬝ᵥ Sg.mulVec v := hps.2 v
    have h1 : (x ⬝ᵥ Sg.mulVec x + R)⁻¹
          * ((x ⬝ᵥ Sg.mulVec v) * (x ⬝ᵥ Sg.mulVec v))
        ≤ (x ⬝ᵥ Sg.mulVec x + R)⁻¹
          * ((x ⬝ᵥ Sg.mulVec x) * (v ⬝ᵥ Sg.mulVec v)) := by
      refine mul_le_mul_of_nonneg_left ?_ (inv_nonneg.mpr hS.le)
      calc (x ⬝ᵥ Sg.mulVec v) * (x ⬝ᵥ Sg.mulVec v)
          = (x ⬝ᵥ Sg.mulVec v) ^ 2 := (sq (x ⬝ᵥ Sg.mulVec v)).symm
        _ ≤ (x ⬝ᵥ Sg.mulVec x) * (v ⬝ᵥ Sg.mulVec v) := hcs
    have h3 : (x ⬝ᵥ Sg.mulVec x + R)⁻¹ * (x ⬝ᵥ Sg.mulVec x) ≤ 1 := by
      rw [inv_mul_le_iff hS]
      linarith
    have h2 : (x ⬝ᵥ Sg.mulVec x + R)⁻¹
          * ((x ⬝ᵥ Sg.mulVec x) * (v ⬝ᵥ Sg.mulVec v))
        ≤ v ⬝ᵥ Sg.mulVec v := by
      calc (x ⬝ᵥ Sg.mulVec x + R)⁻¹
            * ((x ⬝ᵥ Sg.mulVec x) * (v ⬝ᵥ Sg.mulVec v))
          = ((x ⬝ᵥ Sg.mulVec x + R)⁻¹ * (x ⬝ᵥ Sg.mulVec x))
              * (v ⬝ᵥ Sg.mulVec v) := by ring
        _ ≤ 1 * (v ⬝ᵥ Sg.mulVec v) := mul_le_mul_of_nonneg_right h3 hcv
        _ = v ⬝ᵥ Sg.mulVec v := one_mul _
    linarith
  · -- the information-form inverse identity
    have hSgX : Sg * Matrix.vecMulVec x x
        = Matrix.vecMulVec (Sg.mulVec x) x := mat_mul_vecMulVec x x Sg
    have hWM : Matrix.vecMulVec (Sg.mulVec x) x * Sg * M
        = Matrix.vecMulVec (Sg.mulVec x) x := by
      rw [Matrix.mul_assoc, hinv, Matrix.mul_one]
    have hWX : Matrix.vecMulVec (Sg.mulVec x) x * Sg * Matrix.vecMulVec x x
        = (x ⬝ᵥ Sg.mulVec x) • Matrix.vecMulVec (Sg.mulVec x) x := by
      rw [Matrix.mul_assoc, hSgX, vecMulVec_mul_vecMulVec,
        Matrix.dotProduct_comm]
    rw [Matrix.sub_mul, Matrix.mul_add, Matrix.mul_add, hinv,
      Matrix.mul_smul, hSgX, Matrix.smul_mul, Matrix.smul_mul, hWM,
      Matrix.mul_smul, hWX]
    have hco : R⁻¹ • Matrix.vecMulVec (Sg.mulVec x) x
        - ((x ⬝ᵥ Sg.mulVec x + R)⁻¹ • Matrix.vecMulVec (Sg.mulVec x) x
          + (x ⬝ᵥ Sg.mulVec x + R)⁻¹ • R⁻¹ • (x ⬝ᵥ Sg.mulVec x) •
              Matrix.vecMulVec (Sg.mulVec x) x) = 0 := by
      rw [smul_smul, smul_smul, ← add_smul, ← sub_smul]
      have hz : R⁻¹ - ((x ⬝ᵥ Sg.mulVec x + R)⁻¹
          + (x ⬝ᵥ Sg.mulVec x + R)⁻¹ * R⁻¹ * (x ⬝ᵥ Sg.mulVec x)) = 0 := by
        field_simp
        ring
      rw [hz, zero_smul]
    rw [add_sub_assoc, hco, add_zero]
  · -- the mean stays in information form
    rw [Matrix.sub_mulVec, Matrix.smul_mulVec_assoc, ← Matrix.mulVec_mulVec,
      Matrix.mulVec_add, Matrix.mulVec_smul, vecMulVec_mulVec,
      Matrix.dotProduct_add, Matrix.dotProduct_smul]
    rw [add_sub_assoc]
    congr 1
    simp only [smul_eq_mul]
    rw [smul_smul, ← sub_smul]
    congr 1
    field_simp
    ring

/-- Running the static Kalman recursion over a dataset keeps the posterior
in information form: the covariance is the inverse of
`M + (Σ x xᵀ)/R` and the mean is the covariance applied to
`b + (Σ y x)/R`. -/
theorem kf_linreg_run_invariant {d : ℕ} {R : ℚ} (hR : 0 < R) :
    ∀ (data : List (Vec d × ℚ)) (mu : Vec d) (Sg M : Sq d) (b : Vec d),
      IsPSD Sg → Sg * M = 1 → mu = Sg.mulVec b →
      IsPSD (List.foldl (kalman_step 1 0 R) (mu, Sg) data).2 ∧
        (List.foldl (kalman_step 1 0 R) (mu, Sg) data).2
            * (M + R⁻¹ • gram data) = 1 ∧
        (List.foldl (kalman_step 1 0 R) (mu, Sg) data).1
          = (List.foldl (kalman_step 1 0 R) (mu, Sg) data).2.mulVec
              (b + R⁻¹ • xty data) := by
  intro data
  induction data with
  | nil =>
    intro mu Sg M b hps hinv hmu
    refine ⟨hps, ?_, ?_⟩
    · simpa [gram] using hinv
    · simpa [xty] using hmu
  | cons hd tl ih =>
    intro mu Sg M b hps hinv hmu
    obtain ⟨x, yt⟩ := hd
    have hstep := static_update_invariant hR x yt Sg M b hps hinv
    have hsf : kalman_step 1 0 R (mu, Sg) (x, yt)
        = (Sg.mulVec b + ((yt - x ⬝ᵥ Sg.mulVec b)
              * (x ⬝ᵥ Sg.mulVec x + R)⁻¹) • Sg.mulVec x,
           Sg - (x ⬝ᵥ Sg.mulVec x + R)⁻¹ •
             (Matrix.vecMulVec (Sg.mulVec x) x * Sg)) := by
      rw [hmu, kalman_step_static_form]
    rw [List.foldl_cons, hsf]
    have happ := ih _ _ (M + R⁻¹ • Matrix.vecMulVec x x)
      (b + (R⁻¹ * yt) • x) hstep.1 hstep.2.1 hstep.2.2
    refine ⟨happ.1, ?_, ?_⟩
    · have hg : gram ((x, yt) :: tl) = Matrix.vecMulVec x x + gram tl := by
        simp [gram]
      rw [hg, smul_add, ← add_assoc]
      exact happ.2.1
    · have hx : xty ((x, yt) :: tl) = yt • x + xty tl := by
        simp [xty]
      rw [hx, smul_add, smul_smul, ← add_assoc]
      exact happ.2.2

/-- Claim C4: for every dataset, positive observation variance, prior mean
and symmetric-PSD invertible prior covariance, the online Kalman filter of
`kf_linreg` (identity transition, zero process noise) ends, after the last
observation, in exactly the batch posterior computed by `posterior_lreg`
(equality is exact over `ℚ`, subsuming the numerical-tolerance phrasing). -/
theorem c4_kf_linreg_matches_batch_posterior {d : ℕ}
    (data : List (Vec d × ℚ)) (R : ℚ) (mu0 : Vec d) (Sigma0 : Sq d)
    (hR : 0 < R) (hps : IsPSD Sigma0) (hdet : IsUnit Sigma0.det) :
    kf_linreg 1 0 R mu0 Sigma0 data = posterior_lreg R mu0 Sigma0 data := by
  have hinv1 : Sigma0 * matInv Sigma0 = 1 := by
    rw [matInv_eq_inv]
    exact Matrix.mul_nonsing_inv _ hdet
  have hmu0 : mu0 = Sigma0.mulVec ((matInv Sigma0).mulVec mu0) := by
    rw [Matrix.mulVec_mulVec, hinv1, Matrix.one_mulVec]
  obtain ⟨hpsF, hinvF, hmeanF⟩ := kf_linreg_run_invariant hR data mu0 Sigma0
    (matInv Sigma0) ((matInv Sigma0).mulVec mu0) hps hinv1 hmu0
  have hSn : matInv (matInv Sigma0 + R⁻¹ • gram data)
      = (List.foldl (kalman_step 1 0 R) (mu0, Sigma0) data).2 := by
    rw [matInv_eq_inv]
    exact Matrix.inv_eq_left_inv hinvF
  simp only [kf_linreg, posterior_lreg]
  rw [hSn]
  exact Prod.ext hmeanF rfl

theorem c4_kf_linreg_matches_batch_posterior_witness :
    (0 : ℚ) < 1 ∧ IsPSD (1 : Sq 1) ∧ IsUnit (Matrix.det (1 : Sq 1)) ∧
      kf_linreg 1 0 1 0 1 [((fun _ => 2 : Vec 1), 3)]
        = posterior_lreg 1 0 1 [((fun _ => 2 : Vec 1), 3)] := by
  have hps : IsPSD (1 : Sq 1) := by
    refine ⟨Matrix.isSymm_one, fun v => ?_⟩
    rw [Matrix.one_mulVec]
    exact Finset.sum_nonneg fun i _ => mul_self_nonneg (v i)
  have hdet : IsUnit (Matrix.det (1 : Sq 1)) := by simp
  exact ⟨by norm_num, hps, hdet,
    c4_kf_linreg_matches_batch_posterior _ _ _ _ (by norm_num) hps hdet⟩

end JSL
